import Mathlib

/-!
A shallow embedding of the basic-block inlining optimizer of
`libevmasm/Inliner.cpp` (the `Inliner` component), together with proofs about
its candidate extraction, candidate filtering, cost model and rewrite loop.

The instruction model (`AssemblyItem`), the semantic-information classifier and
the byte-size function are external collaborators of the inliner whose sources
are not part of the excerpt; they are modelled from the specification where
noted.  Fixed-width machine arithmetic (`unsigned`, `uint64_t`) is embedded as
`Nat` arithmetic with explicit reduction modulo `2 ^ 32` / `2 ^ 64` exactly
where the C++ expression types are fixed-width.
-/

/-- Jump-kind annotation on assembly items (`AssemblyItem::JumpType`). -/
inductive JumpType where
  | Ordinary
  | IntoFunction
  | OutOfFunction
deriving DecidableEq

/-- Modelled from the spec: the instruction-kind tags of the external
`AssemblyItem` model that the inliner inspects — label definitions (`Tag`),
label-address pushes (`PushTag`) and plain operations/opcodes (`Operation`,
which also stands for the remaining non-label item kinds). -/
inductive ItemType where
  | Operation
  | PushTag
  | Tag
deriving DecidableEq

/-- Modelled from the spec: one instruction of the stream (`AssemblyItem`):
its kind, the label payload (`data`, a `u256` tag identifier or an opcode),
the jump-kind annotation, the encoded byte size `bytesRequired(3)` (a
`size_t`), and the semantic-information classification flag consulted for
plain operations.  Value equality of the C++ type compares kind and payload;
the jump kind is a mutable annotation and not part of identity. -/
structure AssemblyItem where
  type : ItemType
  data : Nat
  jumpType : JumpType
  byteSize : Nat
  breaksFlag : Bool
deriving DecidableEq

/-- The opcode payload standing for `Instruction::JUMP` (0x56). -/
def JUMPop : Nat := 86

/-- `item == Instruction::JUMP`: value equality against the unconditional
jump opcode (kind and payload; the jump-kind annotation is ignored). -/
def eqJUMP (item : AssemblyItem) : Bool :=
  item.type == ItemType.Operation && item.data == JUMPop

/-- Modelled from the spec: `SemanticInformation::breaksCSEAnalysisBlock(item,
false)` — the classifier of instructions after which straight-line fallthrough
cannot be assumed.  Label definitions and the unconditional jump end a
straight-line region; label-address pushes do not; for other operations the
classification is carried on the item itself. -/
def breaksCSEAnalysisBlock (item : AssemblyItem) : Bool :=
  match item.type with
  | ItemType.Tag => true
  | ItemType.PushTag => false
  | ItemType.Operation => if eqJUMP item then true else item.breaksFlag

/-- Modelled from the spec: `item.bytesRequired(3)` — the encoded byte size of
the instruction at the assumed 3-byte address width, carried on the item. -/
def bytesRequired (item : AssemblyItem) : Nat := item.byteSize

/-- `Inliner::InlinableBlock`: the block body (a span of the stream, held here
as the materialised list of items) and the `uint64_t` push-tag count.  The
count field models the value of the `uint64_t` counter. -/
structure InlinableBlock where
  items : List AssemblyItem
  pushTagCount : Nat
deriving DecidableEq

/-- Lookup in an association list keyed by `u256` tags (a `std::map` find). -/
def lookupA {α : Type} : List (Nat × α) → Nat → Option α
  | [], _ => none
  | p :: rest, k => if p.1 = k then some p.2 else lookupA rest k

/-- Mutate the mapped value at a key in place, if the key is present
(`util::valueOrNullptr` followed by mutation through the pointer). -/
def updateA {α : Type} (m : List (Nat × α)) (k : Nat) (f : α → α) : List (Nat × α) :=
  m.map fun p => if p.1 = k then (p.1, f p.2) else p

/-- `map::operator[]` assignment: overwrite if the key is present, append a
fresh entry otherwise. -/
def insertA {α : Type} (m : List (Nat × α)) (k : Nat) (v : α) : List (Nat × α) :=
  if (lookupA m k).isSome then updateA m k (fun _ => v) else m ++ [(k, v)]

/-- `map::emplace`: insert only if the key is absent. -/
def emplaceA {α : Type} (m : List (Nat × α)) (k : Nat) (v : α) : List (Nat × α) :=
  if (lookupA m k).isSome then m else m ++ [(k, v)]

/-- The loop state of the scan in `Inliner::determineInlinableBlocks`: for
each tag the slicing bounds `(lastTag + 1, index + 1)` of its finalised block in
the scanned stream (the C++ code stores the span itself; the bounds determine
it), the push-tag counts (a tag is present in the C++ count map iff its count
is nonzero, since entries are only ever created by `operator[]++`), and the
index of the pending label definition. -/
structure ScanState where
  inlinableBlockItems : List (Nat × Nat × Nat)
  numPushTags : Nat → Nat
  lastTag : Option Nat

/-- An arbitrary item used as the (never relevant) out-of-range default of
indexed access. -/
def defaultItem : AssemblyItem :=
  ⟨ItemType.Operation, 0, JumpType.Ordinary, 1, true⟩

/-- One iteration of the scan loop of `determineInlinableBlocks` at position
`index`: count label-address pushes; on a block-breaking instruction finalise
the pending block when the instruction is the unconditional jump and clear the
pending label either way; record a new pending label on a label definition. -/
def scanStep (items : List AssemblyItem) (s : ScanState) (index : Nat)
    (item : AssemblyItem) : ScanState :=
  let s1 :=
    if item.type = ItemType.PushTag then
      { s with numPushTags := fun t =>
          if t = item.data then s.numPushTags t + 1 else s.numPushTags t }
    else s
  let s2 :=
    match s1.lastTag with
    | some lt =>
      if breaksCSEAnalysisBlock item then
        let s3 :=
          if eqJUMP item then
            let entry : Nat × Nat × Nat :=
              ((items.getD lt defaultItem).data, lt + 1, index + 1)
            { s1 with inlinableBlockItems :=
                insertA s1.inlinableBlockItems entry.1 entry.2 }
          else s1
        { s3 with lastTag := none }
      else s1
    | none => s1
  if item.type = ItemType.Tag then { s2 with lastTag := some index } else s2

/-- The scan loop `for (auto&& [index, item]: _items | views::enumerate)`. -/
def scanFrom (items : List AssemblyItem) :
    Nat → List AssemblyItem → ScanState → ScanState
  | _, [], s => s
  | index, item :: rest, s => scanFrom items (index + 1) rest (scanStep items s index item)

def scan (items : List AssemblyItem) : ScanState :=
  scanFrom items 0 items ⟨[], fun _ => 0, none⟩

/-- The span `_items | ranges::views::slice(start, stop)`. -/
def sliceItems (items : List AssemblyItem) (start stop : Nat) : List AssemblyItem :=
  (items.drop start).take (stop - start)

/-- `Inliner::isInlineCandidate`: assert (`assertThrow`) that the block is
non-empty, then reject blocks that push their own tag. -/
def isInlineCandidate (tag : Nat) (block : InlinableBlock) : Except String Bool :=
  if block.items.length > 0 then
    Except.ok (!(block.items.any fun item =>
      item.type == ItemType.PushTag && tag == item.data))
  else
    Except.error "OptimizerException"

/-- The filter loop of `Inliner::determineInlinableBlocks`: keep a finalised
block if its tag was pushed somewhere (present in the count map) and the
candidate filter accepts it; an assertion failure inside the filter propagates
out of the loop. -/
def filterBlocks (items : List AssemblyItem) (npt : Nat → Nat) :
    List (Nat × Nat × Nat) → List (Nat × InlinableBlock) →
    Except String (List (Nat × InlinableBlock))
  | [], result => Except.ok result
  | e :: rest, result =>
    if 0 < npt e.1 then
      match isInlineCandidate e.1 ⟨sliceItems items e.2.1 e.2.2, npt e.1⟩ with
      | Except.error msg => Except.error msg
      | Except.ok c =>
        filterBlocks items npt rest
          (if c then emplaceA result e.1 ⟨sliceItems items e.2.1 e.2.2, npt e.1⟩ else result)
    else
      filterBlocks items npt rest result

/-- `Inliner::determineInlinableBlocks`. -/
def determineInlinableBlocks (items : List AssemblyItem) :
    Except String (List (Nat × InlinableBlock)) :=
  filterBlocks items (scan items).numPushTags (scan items).inlinableBlockItems []

/-- `2 ^ 32`: the width of the `unsigned` accumulator of the byte-size sum. -/
def U32 : Nat := 4294967296

/-- `2 ^ 64`: the width of `uint64_t` / `size_t` arithmetic. -/
def U64 : Nat := 18446744073709551616

/-- `ranges::accumulate(body | transform(bytesRequired(3)), 0u)`: the byte-size
sum of the block body.  The accumulator of `ranges::accumulate` has the type of
its initial value `0u`, a 32-bit `unsigned`, so every partial sum is narrowed
modulo `2 ^ 32`. -/
def accumulateBytes (l : List AssemblyItem) : Nat :=
  l.foldl (fun acc item => (acc + bytesRequired item) % U32) 0

/-- `Inliner::shouldInline`.  `block.items.back()` on an empty span violates
the span's non-emptiness precondition (per the spec a fatal programming
error), embedded as an error result.  The `uninlinedDepositCost` and
`inlinedCost` initialiser expressions are evaluated in `uint64_t` — reduced
modulo `2 ^ 64` at each operation — and only then widened to `bigint`; solely
`uninlinedExecutionCost` starts from `bigint(m_runs)` and is exact. -/
def shouldInline (m_runs : Nat) (_tag : Nat) (jump : AssemblyItem)
    (block : InlinableBlock) : Except String (Option AssemblyItem) :=
  match block.items.getLast? with
  | none => Except.error "span.back on empty block"
  | some exitJump0 =>
    Except.ok <|
      if jump.jumpType = JumpType.IntoFunction ∧
          exitJump0.jumpType = JumpType.OutOfFunction then
        let exitJump := { exitJump0 with jumpType := JumpType.Ordinary }
        let codeSize := accumulateBytes block.items.dropLast
        let numberOfCalls := block.pushTagCount
        let uninlinedExecutionCost := m_runs * 24 * numberOfCalls
        let uninlinedDepositCost :=
          ((8 * block.pushTagCount % U64 + 2) % U64 + codeSize) % U64 * 200 % U64
        let inlinedCost := block.pushTagCount * codeSize % U64 * 200 % U64
        if inlinedCost < uninlinedExecutionCost + uninlinedDepositCost then
          some exitJump
        else none
      else none

/-- The bookkeeping of an accepted inline (`Inliner::optimise`, lines
147–153): decrement the inlined block's own push-tag count, then bump the
count of every block whose tag is pushed inside the copied body.  The C++
decrement is on `uint64_t` and would wrap below zero; the truncated `Nat`
subtraction agrees with it on every state the pass actually reaches (the
count is at least one at every decrement — see the underflow theorem). -/
def inlineUpdate (blocks : List (Nat × InlinableBlock)) (tag : Nat)
    (body : List AssemblyItem) : List (Nat × InlinableBlock) :=
  body.foldl
    (fun bs inlinedItem =>
      if inlinedItem.type = ItemType.PushTag then
        updateA bs inlinedItem.data (fun b => { b with pushTagCount := b.pushTagCount + 1 })
      else bs)
    (updateA blocks tag (fun b => { b with pushTagCount := b.pushTagCount - 1 }))

/-- The rewrite loop of `Inliner::optimise`: at each position, look one item
ahead; on `PushTag` followed by the unconditional `JUMP` whose tag has a
candidate block accepted by the cost model, emit the body minus its final
jump followed by the rewritten exit jump, perform the bookkeeping, and skip
both consumed items; otherwise emit the item unchanged. -/
def optimiseLoop (m_runs : Nat) :
    List AssemblyItem → List (Nat × InlinableBlock) → List AssemblyItem →
    Except String (List AssemblyItem × List (Nat × InlinableBlock))
  | [], blocks, newItems => Except.ok (newItems, blocks)
  | [item], blocks, newItems => Except.ok (newItems ++ [item], blocks)
  | item :: nextItem :: rest, blocks, newItems =>
    if item.type = ItemType.PushTag ∧ eqJUMP nextItem = true then
      match lookupA blocks item.data with
      | some inlinableBlock =>
        match shouldInline m_runs item.data nextItem inlinableBlock with
        | Except.error msg => Except.error msg
        | Except.ok (some exitJump) =>
          optimiseLoop m_runs rest (inlineUpdate blocks item.data inlinableBlock.items)
            (newItems ++ inlinableBlock.items.dropLast ++ [exitJump])
        | Except.ok none =>
          optimiseLoop m_runs (nextItem :: rest) blocks (newItems ++ [item])
      | none => optimiseLoop m_runs (nextItem :: rest) blocks (newItems ++ [item])
    else
      optimiseLoop m_runs (nextItem :: rest) blocks (newItems ++ [item])

/-- `Inliner::optimise`: build the candidate map, return the stream unchanged
when it is empty, otherwise run the rewrite loop and replace the stream. -/
def optimise (m_runs : Nat) (m_items : List AssemblyItem) :
    Except String (List AssemblyItem) :=
  match determineInlinableBlocks m_items with
  | Except.error msg => Except.error msg
  | Except.ok inlinableBlocks =>
    if inlinableBlocks = [] then Except.ok m_items
    else
      match optimiseLoop m_runs m_items inlinableBlocks [] with
      | Except.error msg => Except.error msg
      | Except.ok r => Except.ok r.1

/-! ### Specification-side measures and concrete items -/

/-- The exact (unbounded) byte-size sum of a list of instructions at the
assumed 3-byte address width — the `codeSize` of the specification. -/
def sumBytes (l : List AssemblyItem) : Nat := (l.map bytesRequired).sum

/-- The number of label-address pushes of tag `t` occurring in `l`. -/
def pushTagCountIn (t : Nat) (l : List AssemblyItem) : Nat :=
  l.countP fun i => i.type == ItemType.PushTag && i.data == t

/-- A label definition for tag `t`. -/
def tagItem (t : Nat) : AssemblyItem := ⟨ItemType.Tag, t, JumpType.Ordinary, 1, true⟩

/-- A label-address push of tag `t` (`bytesRequired(3) = 4`). -/
def pushItem (t : Nat) : AssemblyItem := ⟨ItemType.PushTag, t, JumpType.Ordinary, 4, false⟩

/-- The unconditional jump annotated as a call (`JumpType::IntoFunction`). -/
def callJumpItem : AssemblyItem := ⟨ItemType.Operation, 86, JumpType.IntoFunction, 1, true⟩

/-- The unconditional jump annotated as a return (`JumpType::OutOfFunction`). -/
def returnJumpItem : AssemblyItem := ⟨ItemType.Operation, 86, JumpType.OutOfFunction, 1, true⟩

/-- The unconditional jump with the ordinary annotation. -/
def ordinaryJumpItem : AssemblyItem := ⟨ItemType.Operation, 86, JumpType.Ordinary, 1, true⟩

/-- A straight-line operation of encoded size `sz` that does not break the
analysis block. -/
def plainOp (sz : Nat) : AssemblyItem := ⟨ItemType.Operation, 1, JumpType.Ordinary, sz, false⟩

/-! ### The byte-size accumulator -/

theorem foldl_accumulate_eq (l : List AssemblyItem) :
    ∀ acc, acc + sumBytes l < U32 →
      l.foldl (fun a item => (a + bytesRequired item) % U32) acc = acc + sumBytes l := by
  induction l with
  | nil => intro acc _; simp [sumBytes]
  | cons x xs ih =>
    intro acc h
    have hsum : sumBytes (x :: xs) = bytesRequired x + sumBytes xs := by
      simp [sumBytes]
    rw [hsum] at h
    have hx : acc + bytesRequired x < U32 := by omega
    simp only [List.foldl_cons]
    rw [Nat.mod_eq_of_lt hx, ih (acc + bytesRequired x) (by omega), hsum]
    omega

/-- When the exact byte-size sum fits in the 32-bit accumulator, the
accumulated value is the exact sum. -/
theorem accumulateBytes_eq (l : List AssemblyItem) (h : sumBytes l < U32) :
    accumulateBytes l = sumBytes l := by
  have := foldl_accumulate_eq l 0 (by omega)
  simpa [accumulateBytes] using this

/-! ### A closed form of the cost decision -/

/-- `shouldInline` on a block with final instruction `back`, with the
`uint64_t` arithmetic made explicit. -/
theorem shouldInline_eq (m_runs tag : Nat) (jump : AssemblyItem)
    (block : InlinableBlock) (back : AssemblyItem)
    (hback : block.items.getLast? = some back) :
    shouldInline m_runs tag jump block = Except.ok (
      if jump.jumpType = JumpType.IntoFunction ∧ back.jumpType = JumpType.OutOfFunction then
        if block.pushTagCount * accumulateBytes block.items.dropLast % U64 * 200 % U64 <
            m_runs * 24 * block.pushTagCount +
              ((8 * block.pushTagCount % U64 + 2) % U64 +
                accumulateBytes block.items.dropLast) % U64 * 200 % U64
        then some { back with jumpType := JumpType.Ordinary }
        else none
      else none) := by
  unfold shouldInline
  rw [hback]

/-- C1 (amended): for a block ending in `back`, when the exact deposit and
copy costs fit in 64 bits and the exact body byte-size sum fits in the 32-bit
accumulator (no fixed-width overflow), `shouldInline` returns the final
instruction with its jump kind downgraded to `Ordinary` precisely when the
call jump is `IntoFunction`, the final instruction is `OutOfFunction`, and
`runs * 24 * callCount + (8 * callCount + 2 + codeSize) * 200` strictly
exceeds `callCount * codeSize * 200`; in every other case — including exact
equality of the two sides — it returns `none`. -/
theorem shouldInline_exact_characterisation (m_runs tag : Nat) (jump : AssemblyItem)
    (block : InlinableBlock) (back : AssemblyItem)
    (hback : block.items.getLast? = some back)
    (hcs : sumBytes block.items.dropLast < U32)
    (hd : (8 * block.pushTagCount + 2 + sumBytes block.items.dropLast) * 200 < U64)
    (hi : block.pushTagCount * sumBytes block.items.dropLast * 200 < U64) :
    shouldInline m_runs tag jump block = Except.ok (
      if jump.jumpType = JumpType.IntoFunction ∧ back.jumpType = JumpType.OutOfFunction ∧
          block.pushTagCount * sumBytes block.items.dropLast * 200 <
            m_runs * 24 * block.pushTagCount +
              (8 * block.pushTagCount + 2 + sumBytes block.items.dropLast) * 200
      then some { back with jumpType := JumpType.Ordinary }
      else none) := by
  rw [shouldInline_eq m_runs tag jump block back hback, accumulateBytes_eq _ hcs]
  by_cases hA : jump.jumpType = JumpType.IntoFunction ∧ back.jumpType = JumpType.OutOfFunction
  · obtain ⟨h1, h2⟩ := hA
    have harith1 :
        ((8 * block.pushTagCount % U64 + 2) % U64 + sumBytes block.items.dropLast) % U64
            * 200 % U64 =
          (8 * block.pushTagCount + 2 + sumBytes block.items.dropLast) * 200 := by
      simp only [U64] at hd ⊢
      omega
    have harith2 :
        block.pushTagCount * sumBytes block.items.dropLast % U64 * 200 % U64 =
          block.pushTagCount * sumBytes block.items.dropLast * 200 := by
      generalize block.pushTagCount * sumBytes block.items.dropLast = q at hi ⊢
      simp only [U64] at hi ⊢
      omega
    rw [if_pos ⟨h1, h2⟩, harith1, harith2]
    by_cases hcmp : block.pushTagCount * sumBytes block.items.dropLast * 200 <
        m_runs * 24 * block.pushTagCount +
          (8 * block.pushTagCount + 2 + sumBytes block.items.dropLast) * 200
    · rw [if_pos hcmp, if_pos ⟨h1, h2, hcmp⟩]
    · rw [if_neg hcmp, if_neg (by tauto)]
  · rw [if_neg hA, if_neg (by tauto)]

/-- A block such as exists in the C++ value space — `pushTagCount = 2 ^ 53`
(a valid `uint64_t`), one 2048-byte body instruction — on which the
`uint64_t` product `pushTagCount * codeSize` is exactly `2 ^ 64` and wraps
to zero. -/
def overflowBlock : InlinableBlock := ⟨[plainOp 2048, returnJumpItem], 9007199254740992⟩

/-- C1 counterexample: at `overflowBlock` the code inlines (returns the
rewritten exit jump) although the exact-arithmetic comparison of the claim
rejects, because `inlinedCost` is computed in `uint64_t` and wraps to zero.
So the claimed equivalence is false at this input. -/
theorem shouldInline_exact_characterisation_counterexample :
    shouldInline 1 0 callJumpItem overflowBlock = Except.ok (some ordinaryJumpItem) ∧
    ¬ (overflowBlock.pushTagCount * sumBytes overflowBlock.items.dropLast * 200 <
        1 * 24 * overflowBlock.pushTagCount +
          (8 * overflowBlock.pushTagCount + 2 + sumBytes overflowBlock.items.dropLast) * 200) := by
  constructor
  · rfl
  · decide

/-- C1 witness input: a small block with no overflow anywhere. -/
def plainBlock : InlinableBlock := ⟨[plainOp 5, returnJumpItem], 2⟩

theorem shouldInline_exact_characterisation_witness :
    shouldInline 9 0 callJumpItem plainBlock = Except.ok (
      if callJumpItem.jumpType = JumpType.IntoFunction ∧
          returnJumpItem.jumpType = JumpType.OutOfFunction ∧
          plainBlock.pushTagCount * sumBytes plainBlock.items.dropLast * 200 <
            9 * 24 * plainBlock.pushTagCount +
              (8 * plainBlock.pushTagCount + 2 + sumBytes plainBlock.items.dropLast) * 200
      then some { returnJumpItem with jumpType := JumpType.Ordinary }
      else none) :=
  shouldInline_exact_characterisation 9 0 callJumpItem plainBlock returnJumpItem
    (by rfl) (by decide) (by decide) (by decide)

/-- `pushTagCount = 2 ^ 54`, one 1024-byte body instruction: the exact
`inlinedCost` is `200 * 2 ^ 64` but the `uint64_t` computation wraps it to
zero. -/
def overflowBlock2 : InlinableBlock := ⟨[plainOp 1024, returnJumpItem], 18014398509481984⟩

/-- C3 evidence: at `overflowBlock2` the `inlinedCost` accumulator computed by
the code (in `uint64_t`) is `0`, while its exact mathematical value is
`200 * 2 ^ 64`; consequently the code inlines although exact arithmetic
rejects.  The cost arithmetic is therefore not overflow-free: the
`uninlinedDepositCost` and `inlinedCost` initialisers are evaluated in
fixed-width `uint64_t` (and the byte-size sum in a 32-bit `unsigned`) before
being widened to `bigint`. -/
theorem costArithmetic_overflow_evidence :
    overflowBlock2.pushTagCount * accumulateBytes overflowBlock2.items.dropLast % U64
        * 200 % U64 = 0 ∧
    overflowBlock2.pushTagCount * sumBytes overflowBlock2.items.dropLast * 200 =
      3689348814741910323200 ∧
    shouldInline 1 0 callJumpItem overflowBlock2 = Except.ok (some ordinaryJumpItem) ∧
    ¬ (overflowBlock2.pushTagCount * sumBytes overflowBlock2.items.dropLast * 200 <
        1 * 24 * overflowBlock2.pushTagCount +
          (8 * overflowBlock2.pushTagCount + 2 + sumBytes overflowBlock2.items.dropLast) * 200) := by
  refine ⟨by decide, by decide, by rfl, by decide⟩

/-- C7: calling the candidate filter or the cost model with an empty block is
an assertion-style fatal failure (`assertThrow` in `isInlineCandidate`; the
span non-emptiness precondition of `items.back()` in `shouldInline`), never a
silent result. -/
theorem emptyBlock_assertion_failure (tag count m_runs : Nat) (jump : AssemblyItem) :
    isInlineCandidate tag ⟨[], count⟩ = Except.error "OptimizerException" ∧
    shouldInline m_runs tag jump ⟨[], count⟩ = Except.error "span.back on empty block" :=
  ⟨rfl, rfl⟩

/-- C10: the inlining decision is monotone in the runs weight: if
`shouldInline` accepts at runs weight `r`, it accepts at every `r' ≥ r`,
returning the same rewritten exit instruction. -/
theorem shouldInline_monotone_runs (r r' tag : Nat) (jump : AssemblyItem)
    (block : InlinableBlock) (e : AssemblyItem) (hr : r ≤ r')
    (h : shouldInline r tag jump block = Except.ok (some e)) :
    shouldInline r' tag jump block = Except.ok (some e) := by
  cases hb : block.items.getLast? with
  | none => unfold shouldInline at h; rw [hb] at h; cases h
  | some back =>
    rw [shouldInline_eq r tag jump block back hb] at h
    rw [shouldInline_eq r' tag jump block back hb]
    by_cases hA : jump.jumpType = JumpType.IntoFunction ∧ back.jumpType = JumpType.OutOfFunction
    · rw [if_pos hA] at h ⊢
      rw [Except.ok.injEq] at h
      split at h
      · rename_i hcmp
        have hexec : r * 24 * block.pushTagCount ≤ r' * 24 * block.pushTagCount :=
          Nat.mul_le_mul_right _ (Nat.mul_le_mul_right 24 hr)
        rw [if_pos (lt_of_lt_of_le hcmp (Nat.add_le_add_right hexec _)), Except.ok.injEq]
        exact h
      · cases h
    · rw [if_neg hA] at h ⊢
      exact h

/-- C10 witness input. -/
def monoBlock : InlinableBlock := ⟨[returnJumpItem], 1⟩

theorem shouldInline_monotone_runs_witness :
    shouldInline 7 0 callJumpItem monoBlock = Except.ok (some ordinaryJumpItem) :=
  shouldInline_monotone_runs 2 7 0 callJumpItem monoBlock ordinaryJumpItem
    (by decide) (by rfl)


/-! ### Association-list lemmas -/

theorem lookupA_updateA {α : Type} (m : List (Nat × α)) (k t : Nat) (f : α → α) :
    lookupA (updateA m k f) t = if t = k then (lookupA m t).map f else lookupA m t := by
  induction m with
  | nil => simp [lookupA, updateA]
  | cons p rest ih =>
    simp only [updateA, List.map_cons] at ih ⊢
    by_cases h2 : p.1 = k <;> by_cases h1 : p.1 = t
    · have ht : t = k := h1 ▸ h2
      simp [lookupA, h1, h2, ht]
    · have hkt : ¬ k = t := fun h => h1 (h2.symm ▸ h)
      have htk : ¬ t = k := fun h => hkt h.symm
      simp [lookupA, h1, h2, hkt, htk, ih]
    · have ht : ¬ t = k := fun h => h2 (h1.trans h)
      simp [lookupA, h1, h2, ht]
    · simp [lookupA, h1, h2, ih]

theorem lookupA_eq_some_mem {α : Type} {m : List (Nat × α)} {k : Nat} {v : α}
    (h : lookupA m k = some v) : (k, v) ∈ m := by
  induction m with
  | nil => cases h
  | cons p rest ih =>
    simp only [lookupA] at h
    by_cases hp : p.1 = k
    · rw [if_pos hp] at h
      injection h with h
      have hpe : p = (k, v) := by
        cases p
        simp_all
      rw [← hpe]
      exact List.mem_cons_self p rest
    · rw [if_neg hp] at h
      exact List.mem_cons_of_mem _ (ih h)

theorem lookupA_isSome_iff_keys {α : Type} (m : List (Nat × α)) (k : Nat) :
    (lookupA m k).isSome = true ↔ k ∈ m.map Prod.fst := by
  induction m with
  | nil => simp [lookupA]
  | cons p rest ih =>
    simp only [lookupA, List.map_cons, List.mem_cons]
    by_cases hp : p.1 = k
    · simp [hp]
    · simp only [if_neg hp, ih]
      constructor
      · exact fun h => Or.inr h
      · rintro (h | h)
        · exact absurd h.symm hp
        · exact h

theorem keys_updateA {α : Type} (m : List (Nat × α)) (k : Nat) (f : α → α) :
    (updateA m k f).map Prod.fst = m.map Prod.fst := by
  induction m with
  | nil => rfl
  | cons p rest ih =>
    simp only [updateA, List.map_cons] at ih ⊢
    by_cases hp : p.1 = k <;> simp [hp, ih]

theorem mem_updateA_const {α : Type} {m : List (Nat × α)} {k : Nat} {v : α}
    {e : Nat × α} (h : e ∈ updateA m k (fun _ => v)) : e ∈ m ∨ e = (k, v) := by
  induction m with
  | nil => cases h
  | cons p rest ih =>
    simp only [updateA, List.map_cons, List.mem_cons] at h ⊢
    rcases h with h | h
    · by_cases hp : p.1 = k
      · rw [if_pos hp] at h
        right
        rw [h, hp]
      · rw [if_neg hp] at h
        exact Or.inl (Or.inl h)
    · rcases ih h with h' | h'
      · exact Or.inl (Or.inr h')
      · exact Or.inr h'

theorem updateA_eq_of_not_mem {α : Type} {m : List (Nat × α)} {k : Nat} {f : α → α}
    (h : k ∉ m.map Prod.fst) : updateA m k f = m := by
  induction m with
  | nil => rfl
  | cons p rest ih =>
    simp only [List.map_cons, List.mem_cons] at h
    push_neg at h
    simp only [updateA, List.map_cons]
    rw [if_neg (fun hp => h.1 hp.symm)]
    have := ih (by intro hm; exact h.2 hm)
    simp only [updateA] at this
    rw [this]

theorem mem_insertA {α : Type} {m : List (Nat × α)} {k : Nat} {v : α}
    {e : Nat × α} (h : e ∈ insertA m k v) : e ∈ m ∨ e = (k, v) := by
  unfold insertA at h
  by_cases hk : (lookupA m k).isSome = true
  · rw [if_pos hk] at h
    exact mem_updateA_const h
  · rw [if_neg hk] at h
    rcases List.mem_append.mp h with h' | h'
    · exact Or.inl h'
    · simp only [List.mem_singleton] at h'
      exact Or.inr h'

theorem keys_nodup_insertA {α : Type} {m : List (Nat × α)} {k : Nat} {v : α}
    (h : (m.map Prod.fst).Nodup) : ((insertA m k v).map Prod.fst).Nodup := by
  unfold insertA
  by_cases hk : (lookupA m k).isSome = true
  · rw [if_pos hk, keys_updateA]
    exact h
  · rw [if_neg hk]
    have hkn : k ∉ m.map Prod.fst := by
      intro hm
      exact hk ((lookupA_isSome_iff_keys m k).mpr hm)
    simp only [List.map_append, List.map_cons, List.map_nil]
    rw [List.nodup_append]
    refine ⟨h, List.nodup_singleton k, ?_⟩
    intro a ha hb
    simp only [List.mem_singleton] at hb
    subst hb
    exact hkn ha

theorem pairwise_insertA {α : Type} {R : (Nat × α) → (Nat × α) → Prop}
    {m : List (Nat × α)} {k : Nat} {v : α}
    (hnd : (m.map Prod.fst).Nodup)
    (hall : ∀ e ∈ m, R e (k, v) ∧ R (k, v) e)
    (hp : m.Pairwise R) : (insertA m k v).Pairwise R := by
  unfold insertA
  by_cases hk : (lookupA m k).isSome = true
  · rw [if_pos hk]
    induction m with
    | nil => exact List.Pairwise.nil
    | cons p rest ih =>
      simp only [updateA, List.map_cons]
      rcases List.pairwise_cons.mp hp with ⟨hpr, hprest⟩
      simp only [List.map_cons, List.nodup_cons] at hnd
      by_cases hpk : p.1 = k
      · rw [if_pos hpk, hpk]
        have hrest : updateA rest k (fun _ => v) = rest :=
          updateA_eq_of_not_mem (by rw [← hpk]; exact hnd.1)
        simp only [updateA] at hrest
        rw [hrest]
        refine List.pairwise_cons.mpr ⟨?_, hprest⟩
        intro y hy
        exact (hall y (List.mem_cons_of_mem _ hy)).2
      · rw [if_neg hpk]
        refine List.pairwise_cons.mpr ⟨?_, ?_⟩
        · intro y hy
          have hy' := mem_updateA_const hy
          rcases hy' with hy' | hy'
          · exact hpr y hy'
          · rw [hy']
            exact (hall p (List.mem_cons_self p rest)).1
        · refine ih hnd.2 ?_ hprest ?_
          · intro e he
            exact hall e (List.mem_cons_of_mem _ he)
          · simp only [lookupA, if_neg hpk] at hk
            exact hk
  · rw [if_neg hk]
    rw [List.pairwise_append]
    refine ⟨hp, List.pairwise_singleton R (k, v), ?_⟩
    intro x hx y hy
    simp only [List.mem_singleton] at hy
    rw [hy]
    exact (hall x hx).1

/-! ### Counting label-address pushes -/

theorem pushTagCountIn_cons (t : Nat) (i : AssemblyItem) (l : List AssemblyItem) :
    pushTagCountIn t (i :: l) =
      pushTagCountIn t l + (if i.type = ItemType.PushTag ∧ i.data = t then 1 else 0) := by
  simp only [pushTagCountIn, List.countP_cons]
  congr 1
  by_cases h : i.type = ItemType.PushTag ∧ i.data = t
  · rw [if_pos h]
    rw [if_pos]
    simp [h.1, h.2]
  · rw [if_neg h, if_neg]
    intro hb
    simp only [Bool.and_eq_true, beq_iff_eq] at hb
    exact h hb

/-- After the bookkeeping fold over the copied body, each tag's present entry
has its count raised by the number of pushes of that tag in the body (and its
items unchanged). -/
theorem lookupA_bumpFold (body : List AssemblyItem) (bs : List (Nat × InlinableBlock)) (t : Nat) :
    lookupA (body.foldl (fun bs2 inlinedItem =>
        if inlinedItem.type = ItemType.PushTag then
          updateA bs2 inlinedItem.data (fun b => { b with pushTagCount := b.pushTagCount + 1 })
        else bs2) bs) t =
      (lookupA bs t).map
        (fun b => { b with pushTagCount := b.pushTagCount + pushTagCountIn t body }) := by
  induction body generalizing bs with
  | nil =>
    simp only [List.foldl_nil]
    cases h : lookupA bs t
    · rfl
    · simp [pushTagCountIn]
  | cons i is ih =>
    simp only [List.foldl_cons]
    by_cases hi : i.type = ItemType.PushTag
    · rw [if_pos hi, ih, lookupA_updateA]
      by_cases ht : t = i.data
      · rw [if_pos ht]
        cases h : lookupA bs t
        · rfl
        · simp only [Option.map_some', Option.some.injEq, InlinableBlock.mk.injEq]
          refine ⟨trivial, ?_⟩
          rw [pushTagCountIn_cons, if_pos ⟨hi, ht.symm⟩]
          omega
      · rw [if_neg ht]
        cases h : lookupA bs t
        · rfl
        · simp only [Option.map_some', Option.some.injEq, InlinableBlock.mk.injEq]
          refine ⟨trivial, ?_⟩
          rw [pushTagCountIn_cons, if_neg (fun hc => ht hc.2.symm)]
          omega
    · rw [if_neg hi, ih]
      cases h : lookupA bs t
      · rfl
      · simp only [Option.map_some', Option.some.injEq, InlinableBlock.mk.injEq]
        refine ⟨trivial, ?_⟩
        rw [pushTagCountIn_cons, if_neg (fun hc => hi hc.1)]
        omega

/-- The lookup view of the bookkeeping `inlineUpdate`: the inlined tag's count
is decremented by one (then raised by any pushes of itself in the body), every
other present tag's count is raised by the number of its pushes in the copied
body, and no block's items change. -/
theorem lookupA_inlineUpdate (blocks : List (Nat × InlinableBlock)) (tag t : Nat)
    (body : List AssemblyItem) :
    lookupA (inlineUpdate blocks tag body) t =
      (lookupA blocks t).map (fun b =>
        { b with pushTagCount :=
            (if t = tag then b.pushTagCount - 1 else b.pushTagCount) +
              pushTagCountIn t body }) := by
  unfold inlineUpdate
  rw [lookupA_bumpFold, lookupA_updateA]
  by_cases ht : t = tag
  · subst ht
    cases h : lookupA blocks t <;> simp
  · cases h : lookupA blocks t <;> simp [ht]

/-! ### The scan: projections of one step -/

theorem eqJUMP_type {item : AssemblyItem} (h : eqJUMP item = true) :
    item.type = ItemType.Operation := by
  simp only [eqJUMP, Bool.and_eq_true, beq_iff_eq] at h
  exact h.1

theorem breaks_of_eqJUMP {item : AssemblyItem} (h : eqJUMP item = true) :
    breaksCSEAnalysisBlock item = true := by
  unfold breaksCSEAnalysisBlock
  rw [eqJUMP_type h]
  simp [h]

theorem scanStep_numPushTags (items : List AssemblyItem) (s : ScanState) (index : Nat)
    (item : AssemblyItem) (t : Nat) :
    (scanStep items s index item).numPushTags t =
      s.numPushTags t + (if item.type = ItemType.PushTag ∧ item.data = t then 1 else 0) := by
  unfold scanStep
  by_cases hp : item.type = ItemType.PushTag
  · simp only [if_pos hp]
    by_cases hd : t = item.data
    · cases hs : s.lastTag <;> simp [breaksCSEAnalysisBlock, eqJUMP, hp, hs, hd]
    · have hd2 : ¬ item.data = t := fun h => hd h.symm
      cases hs : s.lastTag <;> simp [breaksCSEAnalysisBlock, eqJUMP, hp, hs, hd, hd2]
  · simp only [if_neg hp]
    cases hs : s.lastTag <;>
      by_cases hbr : breaksCSEAnalysisBlock item = true <;>
        by_cases hj : eqJUMP item = true <;>
          by_cases ht : item.type = ItemType.Tag <;>
            simp [hs, hbr, hj, ht, hp]

theorem scanStep_blocks (items : List AssemblyItem) (s : ScanState) (index : Nat)
    (item : AssemblyItem) :
    (scanStep items s index item).inlinableBlockItems =
      match s.lastTag with
      | some lt =>
        if eqJUMP item then
          insertA s.inlinableBlockItems (items.getD lt defaultItem).data (lt + 1, index + 1)
        else s.inlinableBlockItems
      | none => s.inlinableBlockItems := by
  unfold scanStep
  cases hs : s.lastTag with
  | none =>
    by_cases hp : item.type = ItemType.PushTag <;>
      by_cases ht : item.type = ItemType.Tag <;>
        simp [hs, hp, ht]
  | some lt =>
    by_cases hj : eqJUMP item = true
    · have hbr := breaks_of_eqJUMP hj
      have hop := eqJUMP_type hj
      have hp : ¬ item.type = ItemType.PushTag := by rw [hop]; intro hc; cases hc
      have ht : ¬ item.type = ItemType.Tag := by rw [hop]; intro hc; cases hc
      simp [hs, hj, hbr, hp, ht]
    · by_cases hbr : breaksCSEAnalysisBlock item = true <;>
        by_cases hp : item.type = ItemType.PushTag <;>
          by_cases ht : item.type = ItemType.Tag <;>
            simp [hs, hj, hbr, hp, ht]

theorem scanStep_lastTag (items : List AssemblyItem) (s : ScanState) (index : Nat)
    (item : AssemblyItem) :
    (scanStep items s index item).lastTag =
      if item.type = ItemType.Tag then some index
      else
        match s.lastTag with
        | some lt => if breaksCSEAnalysisBlock item then none else some lt
        | none => none := by
  unfold scanStep
  cases hs : s.lastTag <;>
    by_cases hp : item.type = ItemType.PushTag <;>
      by_cases hbr : breaksCSEAnalysisBlock item = true <;>
        by_cases hj : eqJUMP item = true <;>
          by_cases ht : item.type = ItemType.Tag <;>
            simp [hs, hp, hbr, hj, ht]

/-! ### The scan: push-tag counts -/

theorem scanFrom_numPushTags (items : List AssemblyItem) (suffix : List AssemblyItem) :
    ∀ (index : Nat) (s : ScanState) (t : Nat),
      (scanFrom items index suffix s).numPushTags t =
        s.numPushTags t + pushTagCountIn t suffix := by
  induction suffix with
  | nil => intro index s t; simp [scanFrom, pushTagCountIn]
  | cons i is ih =>
    intro index s t
    simp only [scanFrom]
    rw [ih, scanStep_numPushTags, pushTagCountIn_cons]
    omega

/-- The scan's count map holds, for each tag, the number of its label-address
pushes in the whole stream. -/
theorem scan_numPushTags (items : List AssemblyItem) (t : Nat) :
    (scan items).numPushTags t = pushTagCountIn t items := by
  unfold scan
  rw [scanFrom_numPushTags]
  simp

/-! ### Index bookkeeping for the scan -/

theorem getD_of_drop_cons {items rest : List AssemblyItem} {idx : Nat}
    {item : AssemblyItem} (h : items.drop idx = item :: rest) :
    items.getD idx defaultItem = item := by
  have h0 : items[idx]? = some item := by
    have hoffset := List.getElem?_drop items idx 0
    rw [h] at hoffset
    simpa using hoffset.symm
  rw [List.getD_eq_getElem?_getD, h0]
  rfl

theorem drop_cons_lt_length {items rest : List AssemblyItem} {idx : Nat}
    {item : AssemblyItem} (h : items.drop idx = item :: rest) :
    idx < items.length := by
  by_contra hc
  push_neg at hc
  rw [List.drop_eq_nil_iff.mpr hc] at h
  cases h

theorem drop_cons_tail {items rest : List AssemblyItem} {idx : Nat}
    {item : AssemblyItem} (h : items.drop idx = item :: rest) :
    items.drop (idx + 1) = rest := by
  rw [← List.drop_drop, h]
  rfl

/-! ### Well-formedness of finalised spans -/

/-- A well-formed finalised block span: it starts right after its label
definition (which carries its key), ends at its terminating unconditional
jump, lies inside the stream, and contains no block-breaking instruction
strictly before its final jump. -/
structure SpanWF (items : List AssemblyItem) (tag start stop : Nat) : Prop where
  start_pos : 0 < start
  start_lt : start < stop
  stop_le : stop ≤ items.length
  label_type : (items.getD (start - 1) defaultItem).type = ItemType.Tag
  label_data : (items.getD (start - 1) defaultItem).data = tag
  ends_jump : eqJUMP (items.getD (stop - 1) defaultItem) = true
  interior : ∀ k, start ≤ k → k + 1 < stop →
    breaksCSEAnalysisBlock (items.getD k defaultItem) = false

/-- The inductive invariant of the scan loop at position `index`. -/
structure ScanWF (items : List AssemblyItem) (index : Nat) (s : ScanState) : Prop where
  blocks_wf : ∀ e ∈ s.inlinableBlockItems, SpanWF items e.1 e.2.1 e.2.2 ∧ e.2.2 ≤ index
  keys_nodup : (s.inlinableBlockItems.map Prod.fst).Nodup
  spans_disjoint :
    s.inlinableBlockItems.Pairwise fun e1 e2 => e1.2.2 ≤ e2.2.1 ∨ e2.2.2 ≤ e1.2.1
  lastTag_wf : ∀ lt, s.lastTag = some lt →
    lt < index ∧ (items.getD lt defaultItem).type = ItemType.Tag ∧
    (∀ k, lt < k → k < index → breaksCSEAnalysisBlock (items.getD k defaultItem) = false) ∧
    ∀ e ∈ s.inlinableBlockItems, e.2.2 ≤ lt + 1

theorem eqJUMP_false_of_tag {item : AssemblyItem} (h : item.type = ItemType.Tag) :
    eqJUMP item = false := by
  simp [eqJUMP, h]

theorem scanStep_wf (items : List AssemblyItem) (index : Nat) (s : ScanState)
    (item : AssemblyItem) (hidx : index < items.length)
    (hitem : items.getD index defaultItem = item)
    (h : ScanWF items index s) :
    ScanWF items (index + 1) (scanStep items s index item) := by
  constructor
  case blocks_wf =>
    rw [scanStep_blocks]
    cases hs : s.lastTag with
    | none =>
      intro e he
      exact ⟨(h.blocks_wf e he).1, Nat.le_succ_of_le (h.blocks_wf e he).2⟩
    | some lt =>
      dsimp only
      by_cases hj : eqJUMP item = true
      · rw [if_pos hj]
        intro e he
        rcases mem_insertA he with he | he
        · exact ⟨(h.blocks_wf e he).1, Nat.le_succ_of_le (h.blocks_wf e he).2⟩
        · obtain ⟨hlt, htag, hbk, hstops⟩ := h.lastTag_wf lt hs
          subst he
          dsimp only
          refine ⟨⟨Nat.succ_pos lt, by omega, by omega, ?_, ?_, ?_, ?_⟩, le_refl _⟩
          · rw [Nat.add_sub_cancel]
            exact htag
          · rw [Nat.add_sub_cancel]
          · rw [Nat.add_sub_cancel, hitem]
            exact hj
          · intro k hk1 hk2
            exact hbk k (by omega) (by omega)
      · rw [if_neg hj]
        intro e he
        exact ⟨(h.blocks_wf e he).1, Nat.le_succ_of_le (h.blocks_wf e he).2⟩
  case keys_nodup =>
    rw [scanStep_blocks]
    cases hs : s.lastTag with
    | none => exact h.keys_nodup
    | some lt =>
      dsimp only
      by_cases hj : eqJUMP item = true
      · rw [if_pos hj]
        exact keys_nodup_insertA h.keys_nodup
      · rw [if_neg hj]
        exact h.keys_nodup
  case spans_disjoint =>
    rw [scanStep_blocks]
    cases hs : s.lastTag with
    | none => exact h.spans_disjoint
    | some lt =>
      dsimp only
      by_cases hj : eqJUMP item = true
      · rw [if_pos hj]
        obtain ⟨hlt, htag, hbk, hstops⟩ := h.lastTag_wf lt hs
        refine pairwise_insertA h.keys_nodup ?_ h.spans_disjoint
        intro e he
        exact ⟨Or.inl (hstops e he), Or.inr (hstops e he)⟩
      · rw [if_neg hj]
        exact h.spans_disjoint
  case lastTag_wf =>
    rw [scanStep_lastTag, scanStep_blocks]
    by_cases ht : item.type = ItemType.Tag
    · rw [if_pos ht]
      intro lt' heq
      injection heq with heq
      subst heq
      have hjf : eqJUMP item = false := eqJUMP_false_of_tag ht
      have hblocks_same :
          (match s.lastTag with
            | some lt =>
              if eqJUMP item then
                insertA s.inlinableBlockItems (items.getD lt defaultItem).data
                  (lt + 1, index + 1)
              else s.inlinableBlockItems
            | none => s.inlinableBlockItems) = s.inlinableBlockItems := by
        have hjt : ¬ eqJUMP item = true := by
          rw [hjf]
          intro hc
          cases hc
        cases hs : s.lastTag
        · rfl
        · dsimp only
          rw [if_neg hjt]
      rw [hblocks_same]
      refine ⟨Nat.lt_succ_self index, hitem ▸ ht, ?_, ?_⟩
      · intro k hk1 hk2
        omega
      · intro e he
        exact Nat.le_succ_of_le (h.blocks_wf e he).2
    · rw [if_neg ht]
      cases hs : s.lastTag with
      | none =>
        intro lt' heq
        cases heq
      | some lt =>
        dsimp only
        by_cases hbr : breaksCSEAnalysisBlock item = true
        · rw [if_pos hbr]
          intro lt' heq
          cases heq
        · rw [if_neg hbr]
          intro lt' heq
          injection heq with heq
          subst heq
          obtain ⟨hlt, htag, hbk, hstops⟩ := h.lastTag_wf lt hs
          have hjf : ¬ eqJUMP item = true := fun hj => hbr (breaks_of_eqJUMP hj)
          rw [if_neg hjf]
          refine ⟨by omega, htag, ?_, hstops⟩
          intro k hk1 hk2
          by_cases hk : k < index
          · exact hbk k hk1 hk
          · have : k = index := by omega
            subst this
            rw [hitem]
            simp only [Bool.not_eq_true] at hbr
            exact hbr

theorem scanFrom_wf (items : List AssemblyItem) (suffix : List AssemblyItem) :
    ∀ (index : Nat) (s : ScanState), items.drop index = suffix →
      ScanWF items index s →
      (∀ e ∈ (scanFrom items index suffix s).inlinableBlockItems,
        SpanWF items e.1 e.2.1 e.2.2) ∧
      ((scanFrom items index suffix s).inlinableBlockItems.map Prod.fst).Nodup ∧
      (scanFrom items index suffix s).inlinableBlockItems.Pairwise
        (fun e1 e2 => e1.2.2 ≤ e2.2.1 ∨ e2.2.2 ≤ e1.2.1) := by
  induction suffix with
  | nil =>
    intro index s hdrop h
    exact ⟨fun e he => (h.blocks_wf e he).1, h.keys_nodup, h.spans_disjoint⟩
  | cons i is ih =>
    intro index s hdrop h
    simp only [scanFrom]
    exact ih (index + 1) _ (drop_cons_tail hdrop)
      (scanStep_wf items index s i (drop_cons_lt_length hdrop) (getD_of_drop_cons hdrop) h)

/-- Every span recorded by the scan is well formed; the recorded tags are
pairwise distinct and the spans pairwise disjoint. -/
theorem scan_wf (items : List AssemblyItem) :
    (∀ e ∈ (scan items).inlinableBlockItems, SpanWF items e.1 e.2.1 e.2.2) ∧
    ((scan items).inlinableBlockItems.map Prod.fst).Nodup ∧
    (scan items).inlinableBlockItems.Pairwise
      (fun e1 e2 => e1.2.2 ≤ e2.2.1 ∨ e2.2.2 ≤ e1.2.1) := by
  refine scanFrom_wf items items 0 ⟨[], fun _ => 0, none⟩ rfl ?_
  constructor
  · intro e he
    cases he
  · exact List.nodup_nil
  · exact List.Pairwise.nil
  · intro lt heq
    cases heq

/-! ### Slices of the stream -/

theorem sliceItems_length (items : List AssemblyItem) (start stop : Nat)
    (h : stop ≤ items.length) :
    (sliceItems items start stop).length = stop - start := by
  unfold sliceItems
  rw [List.length_take, List.length_drop]
  omega

theorem sliceItems_getLast_eq (items : List AssemblyItem) (start stop : Nat)
    (h1 : start < stop) (h2 : stop ≤ items.length) :
    (sliceItems items start stop).getLast? =
      some (items.getD (stop - 1) defaultItem) := by
  have hlt : stop - 1 < items.length := by omega
  rw [List.getLast?_eq_getElem?, sliceItems_length items start stop h2]
  unfold sliceItems
  rw [List.getElem?_take]
  rw [if_pos (by omega)]
  rw [List.getElem?_drop]
  have hix : start + (stop - start - 1) = stop - 1 := by omega
  rw [hix, List.getElem?_eq_getElem hlt, List.getD_eq_getElem?_getD,
    List.getElem?_eq_getElem hlt]
  rfl

/-! ### The candidate filter loop -/

theorem mem_emplaceA {α : Type} {m : List (Nat × α)} {k : Nat} {v : α} {e : Nat × α}
    (h : e ∈ emplaceA m k v) : e ∈ m ∨ e = (k, v) := by
  unfold emplaceA at h
  by_cases hk : (lookupA m k).isSome = true
  · rw [if_pos hk] at h
    exact Or.inl h
  · rw [if_neg hk] at h
    rcases List.mem_append.mp h with h' | h'
    · exact Or.inl h'
    · simp only [List.mem_singleton] at h'
      exact Or.inr h'

/-- The filter loop succeeds whenever every span's slice is non-empty, and
every entry of its result is carried in from the accumulator or built from a
span entry whose tag is pushed somewhere and accepted by the filter. -/
theorem filterBlocks_ok (items : List AssemblyItem) (npt : Nat → Nat)
    (l : List (Nat × Nat × Nat)) :
    ∀ acc : List (Nat × InlinableBlock),
      (∀ e ∈ l, (sliceItems items e.2.1 e.2.2).length ≠ 0) →
      ∃ r, filterBlocks items npt l acc = Except.ok r ∧
        ∀ p ∈ r, p ∈ acc ∨ ∃ e ∈ l, p.1 = e.1 ∧
          p.2 = ⟨sliceItems items e.2.1 e.2.2, npt e.1⟩ ∧ 0 < npt e.1 ∧
          isInlineCandidate p.1 p.2 = Except.ok true := by
  induction l with
  | nil =>
    intro acc _
    exact ⟨acc, rfl, fun p hp => Or.inl hp⟩
  | cons e rest ih =>
    intro acc hne
    simp only [filterBlocks]
    by_cases h0 : 0 < npt e.1
    · rw [if_pos h0]
      have hlen : (sliceItems items e.2.1 e.2.2).length > 0 :=
        Nat.pos_of_ne_zero (hne e (List.mem_cons_self e rest))
      have hcand : isInlineCandidate e.1 ⟨sliceItems items e.2.1 e.2.2, npt e.1⟩ =
          Except.ok (!(sliceItems items e.2.1 e.2.2).any fun item =>
            item.type == ItemType.PushTag && e.1 == item.data) := by
        unfold isInlineCandidate
        rw [if_pos hlen]
      rw [hcand]
      dsimp only
      have hrest : ∀ e' ∈ rest, (sliceItems items e'.2.1 e'.2.2).length ≠ 0 :=
        fun e' he' => hne e' (List.mem_cons_of_mem _ he')
      by_cases hb : (!(sliceItems items e.2.1 e.2.2).any fun item =>
          item.type == ItemType.PushTag && e.1 == item.data) = true
      · rw [if_pos hb]
        obtain ⟨r, hr, hmem⟩ :=
          ih (emplaceA acc e.1 ⟨sliceItems items e.2.1 e.2.2, npt e.1⟩) hrest
        refine ⟨r, hr, ?_⟩
        intro p hp
        rcases hmem p hp with hpacc | ⟨e', he', h1, h2, h3, h4⟩
        · rcases mem_emplaceA hpacc with hpacc | hpe
          · exact Or.inl hpacc
          · refine Or.inr ⟨e, List.mem_cons_self e rest, ?_, ?_, h0, ?_⟩
            · rw [hpe]
            · rw [hpe]
            · rw [hpe]
              rw [hcand, hb]
        · exact Or.inr ⟨e', List.mem_cons_of_mem _ he', h1, h2, h3, h4⟩
      · rw [if_neg hb]
        obtain ⟨r, hr, hmem⟩ := ih acc hrest
        refine ⟨r, hr, ?_⟩
        intro p hp
        rcases hmem p hp with hpacc | ⟨e', he', h1, h2, h3, h4⟩
        · exact Or.inl hpacc
        · exact Or.inr ⟨e', List.mem_cons_of_mem _ he', h1, h2, h3, h4⟩
    · rw [if_neg h0]
      obtain ⟨r, hr, hmem⟩ := ih acc
        (fun e' he' => hne e' (List.mem_cons_of_mem _ he'))
      refine ⟨r, hr, ?_⟩
      intro p hp
      rcases hmem p hp with hpacc | ⟨e', he', h1, h2, h3, h4⟩
      · exact Or.inl hpacc
      · exact Or.inr ⟨e', List.mem_cons_of_mem _ he', h1, h2, h3, h4⟩

/-- `determineInlinableBlocks` always succeeds, and every entry of the result
is built from a well-formed span for its tag, counted by the number of pushes
of its tag in the stream (positive), and accepted by the candidate filter. -/
theorem determineInlinableBlocks_spec (items : List AssemblyItem) :
    ∃ m, determineInlinableBlocks items = Except.ok m ∧
      ∀ p ∈ m, ∃ e ∈ (scan items).inlinableBlockItems, p.1 = e.1 ∧
        SpanWF items e.1 e.2.1 e.2.2 ∧
        p.2 = ⟨sliceItems items e.2.1 e.2.2, pushTagCountIn e.1 items⟩ ∧
        0 < pushTagCountIn p.1 items ∧
        isInlineCandidate p.1 p.2 = Except.ok true := by
  obtain ⟨hwf, hnd, hpw⟩ := scan_wf items
  have hne : ∀ e ∈ (scan items).inlinableBlockItems,
      (sliceItems items e.2.1 e.2.2).length ≠ 0 := by
    intro e he
    have hs := hwf e he
    rw [sliceItems_length items e.2.1 e.2.2 hs.stop_le]
    have := hs.start_lt
    omega
  obtain ⟨r, hr, hmem⟩ :=
    filterBlocks_ok items (scan items).numPushTags (scan items).inlinableBlockItems [] hne
  refine ⟨r, hr, ?_⟩
  intro p hp
  rcases hmem p hp with hpacc | ⟨e, he, h1, h2, h3, h4⟩
  · cases hpacc
  · refine ⟨e, he, h1, hwf e he, ?_, ?_, h4⟩
    · rw [h2, scan_numPushTags]
    · rw [h1, ← scan_numPushTags]
      exact h3

/-! ### The rewrite loop -/

theorem lookupA_inlineUpdate_some {blocks : List (Nat × InlinableBlock)}
    {tag : Nat} {body : List AssemblyItem} {t : Nat} {b' : InlinableBlock}
    (h : lookupA (inlineUpdate blocks tag body) t = some b') :
    ∃ b, lookupA blocks t = some b ∧ b'.items = b.items ∧
      b'.pushTagCount =
        (if t = tag then b.pushTagCount - 1 else b.pushTagCount) +
          pushTagCountIn t body := by
  rw [lookupA_inlineUpdate] at h
  cases hb : lookupA blocks t
  · rw [hb] at h
    cases h
  · rw [hb] at h
    injection h with h
    exact ⟨_, rfl, by rw [← h], by rw [← h]⟩

theorem pushTagCountIn_eq_zero {t : Nat} {l : List AssemblyItem}
    (h : ∀ i ∈ l, ¬ (i.type = ItemType.PushTag ∧ i.data = t)) :
    pushTagCountIn t l = 0 := by
  unfold pushTagCountIn
  rw [List.countP_eq_zero]
  intro a ha hc
  simp only [Bool.and_eq_true, beq_iff_eq] at hc
  exact h a ha hc

/-- The rewrite loop never replaces the items of a block in the candidate
map: every block in the final map existed in the initial map with the same
body (only the counts are adjusted). -/
theorem optimiseLoop_items_preserved (m_runs : Nat) :
    ∀ (n : Nat) (remaining : List AssemblyItem) (blocks : List (Nat × InlinableBlock))
      (acc out : List AssemblyItem) (blocks' : List (Nat × InlinableBlock)),
      remaining.length ≤ n →
      optimiseLoop m_runs remaining blocks acc = Except.ok (out, blocks') →
      ∀ tag b', lookupA blocks' tag = some b' →
        ∃ b, lookupA blocks tag = some b ∧ b'.items = b.items := by
  intro n
  induction n with
  | zero =>
    intro remaining blocks acc out blocks' hlen h tag b' hlk
    have hnil : remaining = [] := List.eq_nil_of_length_eq_zero (Nat.le_zero.mp hlen)
    subst hnil
    simp only [optimiseLoop] at h
    injection h with h
    injection h with h1 h2
    subst h2
    exact ⟨b', hlk, rfl⟩
  | succ n ih =>
    intro remaining blocks acc out blocks' hlen h tag b' hlk
    match remaining, hlen, h with
    | [], hlen, h =>
      simp only [optimiseLoop] at h
      injection h with h
      injection h with h1 h2
      subst h2
      exact ⟨b', hlk, rfl⟩
    | [item], hlen, h =>
      simp only [optimiseLoop] at h
      injection h with h
      injection h with h1 h2
      subst h2
      exact ⟨b', hlk, rfl⟩
    | item :: nextItem :: rest, hlen, h =>
      simp only [optimiseLoop] at h
      have hlen1 : (nextItem :: rest).length ≤ n := by
        simp only [List.length_cons] at hlen ⊢
        omega
      have hlen2 : rest.length ≤ n := by
        simp only [List.length_cons] at hlen
        omega
      by_cases hc : item.type = ItemType.PushTag ∧ eqJUMP nextItem = true
      · rw [if_pos hc] at h
        cases hlb : lookupA blocks item.data with
        | none =>
          rw [hlb] at h
          exact ih (nextItem :: rest) blocks (acc ++ [item]) out blocks' hlen1 h tag b' hlk
        | some inlinableBlock =>
          rw [hlb] at h
          dsimp only at h
          cases hsi : shouldInline m_runs item.data nextItem inlinableBlock with
          | error msg =>
            rw [hsi] at h
            cases h
          | ok v =>
            rw [hsi] at h
            cases v with
            | none =>
              exact ih (nextItem :: rest) blocks (acc ++ [item]) out blocks' hlen1 h tag b' hlk
            | some exitJump =>
              obtain ⟨b0, hb0, hitems⟩ :=
                ih rest (inlineUpdate blocks item.data inlinableBlock.items)
                  (acc ++ inlinableBlock.items.dropLast ++ [exitJump]) out blocks'
                  hlen2 h tag b' hlk
              obtain ⟨b1, hb1, hitems1, _⟩ := lookupA_inlineUpdate_some hb0
              exact ⟨b1, hb1, hitems.trans hitems1⟩
      · rw [if_neg hc] at h
        exact ih (nextItem :: rest) blocks (acc ++ [item]) out blocks' hlen1 h tag b' hlk

/-- The rewrite loop succeeds whenever every block in the map has a non-empty
body. -/
theorem optimiseLoop_ok (m_runs : Nat) :
    ∀ (n : Nat) (remaining : List AssemblyItem) (blocks : List (Nat × InlinableBlock))
      (acc : List AssemblyItem),
      remaining.length ≤ n →
      (∀ tag b, lookupA blocks tag = some b → b.items ≠ []) →
      ∃ r, optimiseLoop m_runs remaining blocks acc = Except.ok r := by
  intro n
  induction n with
  | zero =>
    intro remaining blocks acc hlen hinv
    have hnil : remaining = [] := List.eq_nil_of_length_eq_zero (Nat.le_zero.mp hlen)
    subst hnil
    exact ⟨(acc, blocks), rfl⟩
  | succ n ih =>
    intro remaining blocks acc hlen hinv
    match remaining, hlen with
    | [], hlen => exact ⟨(acc, blocks), rfl⟩
    | [item], hlen => exact ⟨(acc ++ [item], blocks), rfl⟩
    | item :: nextItem :: rest, hlen =>
      simp only [optimiseLoop]
      have hlen1 : (nextItem :: rest).length ≤ n := by
        simp only [List.length_cons] at hlen ⊢
        omega
      have hlen2 : rest.length ≤ n := by
        simp only [List.length_cons] at hlen
        omega
      by_cases hc : item.type = ItemType.PushTag ∧ eqJUMP nextItem = true
      · rw [if_pos hc]
        cases hlb : lookupA blocks item.data with
        | none => exact ih (nextItem :: rest) blocks (acc ++ [item]) hlen1 hinv
        | some inlinableBlock =>
          dsimp only
          have hne := hinv item.data inlinableBlock hlb
          obtain ⟨back, hback⟩ : ∃ back, inlinableBlock.items.getLast? = some back := by
            cases hb : inlinableBlock.items.getLast? with
            | none => exact absurd (List.getLast?_eq_none_iff.mp hb) hne
            | some back => exact ⟨back, rfl⟩
          rw [shouldInline_eq m_runs item.data nextItem inlinableBlock back hback]
          cases hX : (if nextItem.jumpType = JumpType.IntoFunction ∧
              back.jumpType = JumpType.OutOfFunction then
            if inlinableBlock.pushTagCount *
                accumulateBytes inlinableBlock.items.dropLast % U64 * 200 % U64 <
                m_runs * 24 * inlinableBlock.pushTagCount +
                  ((8 * inlinableBlock.pushTagCount % U64 + 2) % U64 +
                    accumulateBytes inlinableBlock.items.dropLast) % U64 * 200 % U64
            then some { back with jumpType := JumpType.Ordinary }
            else none
          else none) with
          | none => exact ih (nextItem :: rest) blocks (acc ++ [item]) hlen1 hinv
          | some exitJump =>
            refine ih rest (inlineUpdate blocks item.data inlinableBlock.items)
              (acc ++ inlinableBlock.items.dropLast ++ [exitJump]) hlen2 ?_
            intro tag b' hlk'
            obtain ⟨b0, hb0, hitems, _⟩ := lookupA_inlineUpdate_some hlk'
            rw [hitems]
            exact hinv tag b0 hb0
      · rw [if_neg hc]
        exact ih (nextItem :: rest) blocks (acc ++ [item]) hlen1 hinv

/-- No consecutive pair of the remaining stream is a push-tag/JUMP call
accepted by the decision function against the (fixed) candidate map. -/
def noAcceptedCall (m_runs : Nat) (blocks : List (Nat × InlinableBlock)) :
    List AssemblyItem → Prop
  | [] => True
  | [_] => True
  | item :: nextItem :: rest =>
    (¬ ∃ b e, item.type = ItemType.PushTag ∧ eqJUMP nextItem = true ∧
      lookupA blocks item.data = some b ∧
      shouldInline m_runs item.data nextItem b = Except.ok (some e)) ∧
    noAcceptedCall m_runs blocks (nextItem :: rest)

/-- When no call is accepted, the loop copies the stream unchanged and leaves
the map untouched. -/
theorem optimiseLoop_id (m_runs : Nat) (blocks : List (Nat × InlinableBlock))
    (hinv : ∀ tag b, lookupA blocks tag = some b → b.items ≠ []) :
    ∀ (remaining : List AssemblyItem) (acc : List AssemblyItem),
      noAcceptedCall m_runs blocks remaining →
      optimiseLoop m_runs remaining blocks acc =
        Except.ok (acc ++ remaining, blocks) := by
  intro remaining
  induction remaining with
  | nil =>
    intro acc _
    simp [optimiseLoop]
  | cons item tail ih =>
    intro acc hno
    cases tail with
    | nil => simp [optimiseLoop]
    | cons nextItem rest =>
      obtain ⟨hnot, hno'⟩ := hno
      simp only [optimiseLoop]
      have hstep : optimiseLoop m_runs (nextItem :: rest) blocks (acc ++ [item]) =
          Except.ok (acc ++ [item] ++ (nextItem :: rest), blocks) := ih (acc ++ [item]) hno'
      have happ : acc ++ [item] ++ (nextItem :: rest) = acc ++ (item :: nextItem :: rest) := by
        simp
      by_cases hc : item.type = ItemType.PushTag ∧ eqJUMP nextItem = true
      · rw [if_pos hc]
        cases hlb : lookupA blocks item.data with
        | none =>
          rw [hstep, happ]
        | some b =>
          dsimp only
          have hne := hinv item.data b hlb
          obtain ⟨back, hback⟩ : ∃ back, b.items.getLast? = some back := by
            cases hb2 : b.items.getLast? with
            | none => exact absurd (List.getLast?_eq_none_iff.mp hb2) hne
            | some back => exact ⟨back, rfl⟩
          rw [shouldInline_eq m_runs item.data nextItem b back hback]
          cases hX : (if nextItem.jumpType = JumpType.IntoFunction ∧
              back.jumpType = JumpType.OutOfFunction then
            if b.pushTagCount * accumulateBytes b.items.dropLast % U64 * 200 % U64 <
                m_runs * 24 * b.pushTagCount +
                  ((8 * b.pushTagCount % U64 + 2) % U64 +
                    accumulateBytes b.items.dropLast) % U64 * 200 % U64
            then some { back with jumpType := JumpType.Ordinary }
            else none
          else none) with
          | none =>
            rw [hstep, happ]
          | some exitJump =>
            exact absurd ⟨b, exitJump, hc.1, hc.2, hlb,
              by rw [shouldInline_eq m_runs item.data nextItem b back hback, hX]⟩ hnot
      · rw [if_neg hc]
        rw [hstep, happ]

/-- C8: `optimise` never errors on any stream; and whenever no push-tag/JUMP
pair of the stream is accepted by the decision function against the candidate
map — in particular whenever the filtered candidate map is empty — the output
stream is element-for-element identical to the input. -/
theorem optimise_total_and_identity :
    (∀ (m_runs : Nat) (items : List AssemblyItem),
      ∃ out, optimise m_runs items = Except.ok out) ∧
    (∀ (m_runs : Nat) (items : List AssemblyItem) (m : List (Nat × InlinableBlock)),
      determineInlinableBlocks items = Except.ok m →
      noAcceptedCall m_runs m items →
      optimise m_runs items = Except.ok items) ∧
    (∀ (m_runs : Nat) (items : List AssemblyItem),
      determineInlinableBlocks items = Except.ok [] →
      optimise m_runs items = Except.ok items) := by
  have hinv : ∀ (items : List AssemblyItem) (m : List (Nat × InlinableBlock)),
      determineInlinableBlocks items = Except.ok m →
      ∀ tag b, lookupA m tag = some b → b.items ≠ [] := by
    intro items m hm tag b hlk
    obtain ⟨m', hm', hspec⟩ := determineInlinableBlocks_spec items
    rw [hm] at hm'
    injection hm' with hm'
    subst hm'
    obtain ⟨e, he, h1, h2, h3, h4, h5⟩ := hspec (tag, b) (lookupA_eq_some_mem hlk)
    have hb : b = InlinableBlock.mk (sliceItems items e.2.1 e.2.2)
        (pushTagCountIn e.1 items) := h3
    rw [hb]
    apply List.ne_nil_of_length_pos
    show 0 < (sliceItems items e.2.1 e.2.2).length
    rw [sliceItems_length items e.2.1 e.2.2 h2.stop_le]
    have := h2.start_lt
    omega
  refine ⟨?_, ?_, ?_⟩
  · intro m_runs items
    obtain ⟨m, hm, _⟩ := determineInlinableBlocks_spec items
    unfold optimise
    rw [hm]
    dsimp only
    by_cases hmnil : m = []
    · rw [if_pos hmnil]
      exact ⟨items, rfl⟩
    · rw [if_neg hmnil]
      obtain ⟨r, hr⟩ :=
        optimiseLoop_ok m_runs items.length items m [] (le_refl _) (hinv items m hm)
      rw [hr]
      exact ⟨r.1, rfl⟩
  · intro m_runs items m hm hno
    unfold optimise
    rw [hm]
    dsimp only
    by_cases hmnil : m = []
    · rw [if_pos hmnil]
    · rw [if_neg hmnil]
      rw [optimiseLoop_id m_runs m (hinv items m hm) items [] hno]
      dsimp only
      rw [List.nil_append]
  · intro m_runs items hm
    unfold optimise
    rw [hm]
    dsimp only
    rw [if_pos rfl]

/-- The counting invariant of the rewrite loop: every mapped block's count
dominates the number of remaining label-address pushes of its tag. -/
def CountInv (blocks : List (Nat × InlinableBlock)) (remaining : List AssemblyItem) : Prop :=
  ∀ tag b, lookupA blocks tag = some b → pushTagCountIn tag remaining ≤ b.pushTagCount

/-- C6: the push-tag counters never underflow.  The invariant `CountInv`
holds initially (each candidate's count equals the number of pushes of its
tag in the whole stream), is preserved when the loop emits one item
unchanged, and at every inline step the inlined tag's count is at least 1
immediately before the decrement — so the `uint64_t` decrement never wraps —
and the invariant is preserved by the bookkeeping update. -/
theorem pushTagCount_no_underflow :
    (∀ (items : List AssemblyItem) (m : List (Nat × InlinableBlock)),
      determineInlinableBlocks items = Except.ok m → CountInv m items) ∧
    (∀ (blocks : List (Nat × InlinableBlock)) (item : AssemblyItem)
        (rest : List AssemblyItem),
      CountInv blocks (item :: rest) → CountInv blocks rest) ∧
    (∀ (blocks : List (Nat × InlinableBlock)) (item nextItem : AssemblyItem)
        (rest : List AssemblyItem) (b : InlinableBlock),
      item.type = ItemType.PushTag →
      lookupA blocks item.data = some b →
      CountInv blocks (item :: nextItem :: rest) →
      1 ≤ b.pushTagCount ∧
        CountInv (inlineUpdate blocks item.data b.items) rest) := by
  refine ⟨?_, ?_, ?_⟩
  · intro items m hm tag b hlk
    obtain ⟨m', hm', hspec⟩ := determineInlinableBlocks_spec items
    rw [hm] at hm'
    injection hm' with hm'
    subst hm'
    obtain ⟨e, he, h1, h2, h3, h4, h5⟩ := hspec (tag, b) (lookupA_eq_some_mem hlk)
    have hb : b = InlinableBlock.mk (sliceItems items e.2.1 e.2.2)
        (pushTagCountIn e.1 items) := h3
    have htag : tag = e.1 := h1
    rw [hb, ← htag]
  · intro blocks item rest hinv tag b hlk
    have h := hinv tag b hlk
    rw [pushTagCountIn_cons] at h
    omega
  · intro blocks item nextItem rest b hpush hlk hinv
    have hb := hinv item.data b hlk
    rw [pushTagCountIn_cons, pushTagCountIn_cons] at hb
    have hone : (if item.type = ItemType.PushTag ∧ item.data = item.data then 1 else 0) = 1 :=
      if_pos ⟨hpush, rfl⟩
    rw [hone] at hb
    refine ⟨by omega, ?_⟩
    intro tag b' hlk'
    obtain ⟨b0, hb0, hitems, hcount⟩ := lookupA_inlineUpdate_some hlk'
    have h0 := hinv tag b0 hb0
    rw [pushTagCountIn_cons, pushTagCountIn_cons] at h0
    by_cases ht : tag = item.data
    · rw [if_pos ht] at hcount
      have hone2 : (if item.type = ItemType.PushTag ∧ item.data = tag then 1 else 0) = 1 :=
        if_pos ⟨hpush, ht.symm⟩
      rw [hone2] at h0
      omega
    · rw [if_neg ht] at hcount
      omega

/-- A block that pushes its own tag is rejected by the candidate filter. -/
theorem isInlineCandidate_selfPush (tag : Nat) (block : InlinableBlock)
    (h : ∃ i ∈ block.items, i.type = ItemType.PushTag ∧ i.data = tag) :
    isInlineCandidate tag block = Except.ok false := by
  obtain ⟨i, hi, hp⟩ := h
  have hne : 0 < block.items.length := List.length_pos_of_mem hi
  unfold isInlineCandidate
  rw [if_pos hne]
  have hany : (block.items.any fun item =>
      item.type == ItemType.PushTag && tag == item.data) = true := by
    rw [List.any_eq_true]
    refine ⟨i, hi, ?_⟩
    simp [hp.1, hp.2]
  rw [hany]
  rfl

/-- C4: a block pushing its own tag is rejected by `isInlineCandidate`, never
appears in the map built by `determineInlinableBlocks`, and — since the
rewrite loop never alters the items of any mapped block — no call site is
ever inlined with such a block by `optimise`. -/
theorem selfReference_never_inlined :
    (∀ (tag : Nat) (block : InlinableBlock),
      (∃ i ∈ block.items, i.type = ItemType.PushTag ∧ i.data = tag) →
      isInlineCandidate tag block = Except.ok false) ∧
    (∀ (items : List AssemblyItem) (m : List (Nat × InlinableBlock)) (tag : Nat)
        (b : InlinableBlock),
      determineInlinableBlocks items = Except.ok m →
      lookupA m tag = some b →
      ∀ i ∈ b.items, ¬ (i.type = ItemType.PushTag ∧ i.data = tag)) ∧
    (∀ (m_runs : Nat) (remaining : List AssemblyItem)
        (blocks : List (Nat × InlinableBlock)) (acc out : List AssemblyItem)
        (blocks' : List (Nat × InlinableBlock)) (tag : Nat) (b' : InlinableBlock),
      optimiseLoop m_runs remaining blocks acc = Except.ok (out, blocks') →
      lookupA blocks' tag = some b' →
      ∃ b, lookupA blocks tag = some b ∧ b'.items = b.items) := by
  refine ⟨isInlineCandidate_selfPush, ?_, ?_⟩
  · intro items m tag b hm hlk i hi hprop
    obtain ⟨m', hm', hspec⟩ := determineInlinableBlocks_spec items
    rw [hm] at hm'
    injection hm' with hm'
    subst hm'
    obtain ⟨e, he, h1, h2, h3, h4, hcand⟩ := hspec (tag, b) (lookupA_eq_some_mem hlk)
    have hcand' : isInlineCandidate tag b = Except.ok true := hcand
    have hfalse : isInlineCandidate tag b = Except.ok false :=
      isInlineCandidate_selfPush tag b ⟨i, hi, hprop⟩
    have := hfalse.symm.trans hcand'
    injection this with this
    cases this
  · intro m_runs remaining blocks acc out blocks' tag b' h hlk
    exact optimiseLoop_items_preserved m_runs remaining.length remaining blocks acc out
      blocks' (le_refl _) h tag b' hlk

/-- The conditions under which the loop's look-ahead at `item` (followed by
`rest`) does not inline: no look-ahead item, the pair is not a push-tag/JUMP
call, the tag has no candidate block, or the decision function declines. -/
def stepDeclines (m_runs : Nat) (item : AssemblyItem) (rest : List AssemblyItem)
    (blocks : List (Nat × InlinableBlock)) : Prop :=
  match rest with
  | [] => True
  | nextItem :: _ =>
    ¬ (item.type = ItemType.PushTag ∧ eqJUMP nextItem = true) ∨
    lookupA blocks item.data = none ∨
    ∃ b, lookupA blocks item.data = some b ∧
      shouldInline m_runs item.data nextItem b = Except.ok none

/-- C2: one transition of the rewrite loop.  When `items[i]` pushes a tag
whose filtered candidate block `B` exists and the decision function accepts
with rewritten exit `exitJump`, the loop emits `B`'s body minus its final
jump followed by `exitJump`, consumes both the push and the jump, decrements
`B`'s count by exactly one (`B` is filtered, so its body cannot push its own
tag), and raises every other mapped tag's count by exactly the number of
pushes of that tag inside the copied body.  In every other case the item is
emitted unchanged and the scan advances by one. -/
theorem optimiseLoop_step_characterisation :
    (∀ (m_runs : Nat) (item nextItem : AssemblyItem) (rest acc : List AssemblyItem)
        (blocks : List (Nat × InlinableBlock)) (B : InlinableBlock)
        (exitJump : AssemblyItem),
      item.type = ItemType.PushTag →
      eqJUMP nextItem = true →
      lookupA blocks item.data = some B →
      shouldInline m_runs item.data nextItem B = Except.ok (some exitJump) →
      1 ≤ B.pushTagCount →
      (∀ i ∈ B.items, ¬ (i.type = ItemType.PushTag ∧ i.data = item.data)) →
      optimiseLoop m_runs (item :: nextItem :: rest) blocks acc =
        optimiseLoop m_runs rest (inlineUpdate blocks item.data B.items)
          (acc ++ B.items.dropLast ++ [exitJump]) ∧
      lookupA (inlineUpdate blocks item.data B.items) item.data =
        some { B with pushTagCount := B.pushTagCount - 1 } ∧
      (B.pushTagCount - 1) + 1 = B.pushTagCount ∧
      (∀ (t : Nat) (b' : InlinableBlock), ¬ t = item.data →
        lookupA blocks t = some b' →
        lookupA (inlineUpdate blocks item.data B.items) t =
          some { b' with pushTagCount := b'.pushTagCount + pushTagCountIn t B.items })) ∧
    (∀ (m_runs : Nat) (item : AssemblyItem) (rest acc : List AssemblyItem)
        (blocks : List (Nat × InlinableBlock)),
      stepDeclines m_runs item rest blocks →
      optimiseLoop m_runs (item :: rest) blocks acc =
        optimiseLoop m_runs rest blocks (acc ++ [item])) := by
  constructor
  · intro m_runs item nextItem rest acc blocks B exitJump hpush hjump hlk hsi hcnt hself
    refine ⟨?_, ?_, by omega, ?_⟩
    · simp only [optimiseLoop]
      rw [if_pos ⟨hpush, hjump⟩, hlk]
      dsimp only
      rw [hsi]
    · rw [lookupA_inlineUpdate, hlk]
      simp only [Option.map_some']
      rw [if_pos trivial, pushTagCountIn_eq_zero hself]
      rfl
    · intro t b' ht hlk'
      rw [lookupA_inlineUpdate, hlk']
      simp only [Option.map_some']
      rw [if_neg ht]
  · intro m_runs item rest acc blocks hdec
    cases rest with
    | nil => simp [optimiseLoop]
    | cons nextItem rest' =>
      rcases hdec with hdec | hdec | ⟨b, hlk, hsi⟩
      · simp only [optimiseLoop]
        rw [if_neg hdec]
      · simp only [optimiseLoop]
        by_cases hc : item.type = ItemType.PushTag ∧ eqJUMP nextItem = true
        · rw [if_pos hc, hdec]
        · rw [if_neg hc]
      · simp only [optimiseLoop]
        by_cases hc : item.type = ItemType.PushTag ∧ eqJUMP nextItem = true
        · rw [if_pos hc, hlk]
          dsimp only
          rw [hsi]
        · rw [if_neg hc]

/-- `emplaceA` preserves distinctness of keys. -/
theorem keys_nodup_emplaceA {α : Type} {m : List (Nat × α)} {k : Nat} {v : α}
    (h : (m.map Prod.fst).Nodup) : ((emplaceA m k v).map Prod.fst).Nodup := by
  unfold emplaceA
  by_cases hk : (lookupA m k).isSome = true
  · rw [if_pos hk]
    exact h
  · rw [if_neg hk]
    have hkn : k ∉ m.map Prod.fst := by
      intro hm2
      exact hk ((lookupA_isSome_iff_keys m k).mpr hm2)
    simp only [List.map_append, List.map_cons, List.map_nil]
    rw [List.nodup_append]
    refine ⟨h, List.nodup_singleton k, ?_⟩
    intro a ha hb
    simp only [List.mem_singleton] at hb
    subst hb
    exact hkn ha

/-- The filter loop keeps the result's keys distinct. -/
theorem filterBlocks_keys_nodup (items : List AssemblyItem) (npt : Nat → Nat) :
    ∀ (l : List (Nat × Nat × Nat)) (acc r : List (Nat × InlinableBlock)),
      filterBlocks items npt l acc = Except.ok r →
      (acc.map Prod.fst).Nodup → (r.map Prod.fst).Nodup := by
  intro l
  induction l with
  | nil =>
    intro acc r h hacc
    injection h with h
    rw [← h]
    exact hacc
  | cons e rest ih =>
    intro acc r h hacc
    simp only [filterBlocks] at h
    by_cases h0 : 0 < npt e.1
    · rw [if_pos h0] at h
      cases hcand : isInlineCandidate e.1 ⟨sliceItems items e.2.1 e.2.2, npt e.1⟩ with
      | error msg =>
        rw [hcand] at h
        cases h
      | ok c =>
        rw [hcand] at h
        dsimp only at h
        cases c with
        | true =>
          rw [if_pos rfl] at h
          exact ih _ r h (keys_nodup_emplaceA hacc)
        | false =>
          rw [if_neg (fun hc => by cases hc)] at h
          exact ih _ r h hacc
    · rw [if_neg h0] at h
      exact ih _ r h hacc

/-- C5: every block returned by `determineInlinableBlocks` corresponds to a
recorded well-formed span for its tag — the instructions from the position
after its label definition through the terminating unconditional jump
inclusive — its items are exactly that slice, it is non-empty and ends in
the unconditional jump, its tag is pushed at least once in the stream, the
recorded tags are pairwise distinct, and the recorded spans are pairwise
disjoint. -/
theorem determineInlinableBlocks_blocks_wf (items : List AssemblyItem)
    (m : List (Nat × InlinableBlock))
    (hm : determineInlinableBlocks items = Except.ok m) :
    (∀ p ∈ m, ∃ e ∈ (scan items).inlinableBlockItems,
      p.1 = e.1 ∧ SpanWF items e.1 e.2.1 e.2.2 ∧
      p.2.items = sliceItems items e.2.1 e.2.2 ∧
      1 ≤ p.2.items.length ∧
      (∃ back, p.2.items.getLast? = some back ∧ eqJUMP back = true) ∧
      0 < pushTagCountIn p.1 items) ∧
    (m.map Prod.fst).Nodup ∧
    ((scan items).inlinableBlockItems.map Prod.fst).Nodup ∧
    (scan items).inlinableBlockItems.Pairwise
      (fun e1 e2 => e1.2.2 ≤ e2.2.1 ∨ e2.2.2 ≤ e1.2.1) := by
  obtain ⟨m', hm', hspec⟩ := determineInlinableBlocks_spec items
  rw [hm] at hm'
  injection hm' with hm'
  subst hm'
  obtain ⟨hwf, hnd, hpw⟩ := scan_wf items
  have hmnd : (m.map Prod.fst).Nodup := by
    apply filterBlocks_keys_nodup items (scan items).numPushTags
      (scan items).inlinableBlockItems [] m
    · exact hm
    · exact List.nodup_nil
  refine ⟨?_, hmnd, hnd, hpw⟩
  intro p hp
  obtain ⟨e, he, h1, h2, h3, h4, h5⟩ := hspec p hp
  have hitems : p.2.items = sliceItems items e.2.1 e.2.2 := by
    rw [h3]
  refine ⟨e, he, h1, h2, hitems, ?_, ?_, h4⟩
  · rw [hitems, sliceItems_length items e.2.1 e.2.2 h2.stop_le]
    have := h2.start_lt
    omega
  · refine ⟨items.getD (e.2.2 - 1) defaultItem, ?_, h2.ends_jump⟩
    rw [hitems]
    exact sliceItems_getLast_eq items e.2.1 e.2.2 h2.start_lt h2.stop_le

/-! ### Concrete witness inputs -/

/-- A call-shaped stream: a call site for tag 1 followed by tag 1's block. -/
def wStream : List AssemblyItem :=
  [pushItem 1, callJumpItem, tagItem 1, plainOp 5, returnJumpItem]

/-- The candidate block extracted for tag 1 of `wStream`. -/
def wBlock : InlinableBlock := ⟨[plainOp 5, returnJumpItem], 1⟩

/-- The candidate map of `wStream`. -/
def wMap : List (Nat × InlinableBlock) := [(1, wBlock)]

/-- A block pushing its own tag 2. -/
def selfBlock : InlinableBlock := ⟨[pushItem 2, returnJumpItem], 3⟩

/-- A stream with no label in it at all. -/
def noCallStream : List AssemblyItem := [plainOp 1, plainOp 2]

theorem selfReference_never_inlined_witness :
    isInlineCandidate 2 selfBlock = Except.ok false ∧
    (∀ i ∈ wBlock.items, ¬ (i.type = ItemType.PushTag ∧ i.data = 1)) :=
  ⟨selfReference_never_inlined.1 2 selfBlock (by decide),
   selfReference_never_inlined.2.1 wStream wMap 1 wBlock (by rfl) (by rfl)⟩

theorem determineInlinableBlocks_blocks_wf_witness :
    (∀ p ∈ wMap, ∃ e ∈ (scan wStream).inlinableBlockItems,
      p.1 = e.1 ∧ SpanWF wStream e.1 e.2.1 e.2.2 ∧
      p.2.items = sliceItems wStream e.2.1 e.2.2 ∧
      1 ≤ p.2.items.length ∧
      (∃ back, p.2.items.getLast? = some back ∧ eqJUMP back = true) ∧
      0 < pushTagCountIn p.1 wStream) ∧
    (wMap.map Prod.fst).Nodup ∧
    ((scan wStream).inlinableBlockItems.map Prod.fst).Nodup ∧
    (scan wStream).inlinableBlockItems.Pairwise
      (fun e1 e2 => e1.2.2 ≤ e2.2.1 ∨ e2.2.2 ≤ e1.2.1) :=
  determineInlinableBlocks_blocks_wf wStream wMap (by rfl)

theorem pushTagCount_no_underflow_witness :
    CountInv wMap wStream ∧
    (1 ≤ wBlock.pushTagCount ∧
      CountInv (inlineUpdate wMap 1 wBlock.items)
        [tagItem 1, plainOp 5, returnJumpItem]) :=
  ⟨pushTagCount_no_underflow.1 wStream wMap (by rfl),
   pushTagCount_no_underflow.2.2 wMap (pushItem 1) callJumpItem
     [tagItem 1, plainOp 5, returnJumpItem] wBlock (by decide) (by rfl)
     (pushTagCount_no_underflow.1 wStream wMap (by rfl))⟩

theorem optimiseLoop_step_characterisation_witness :
    (optimiseLoop 9 wStream wMap [] =
      optimiseLoop 9 [tagItem 1, plainOp 5, returnJumpItem]
        (inlineUpdate wMap 1 wBlock.items)
        (([] : List AssemblyItem) ++ wBlock.items.dropLast ++ [ordinaryJumpItem]) ∧
     lookupA (inlineUpdate wMap 1 wBlock.items) 1 =
       some { wBlock with pushTagCount := wBlock.pushTagCount - 1 } ∧
     (wBlock.pushTagCount - 1) + 1 = wBlock.pushTagCount ∧
     (∀ (t : Nat) (b' : InlinableBlock), ¬ t = 1 → lookupA wMap t = some b' →
       lookupA (inlineUpdate wMap 1 wBlock.items) t =
         some { b' with pushTagCount := b'.pushTagCount + pushTagCountIn t wBlock.items })) ∧
    optimiseLoop 9 (plainOp 7 :: noCallStream) wMap [] =
      optimiseLoop 9 noCallStream wMap (([] : List AssemblyItem) ++ [plainOp 7]) :=
  ⟨optimiseLoop_step_characterisation.1 9 (pushItem 1) callJumpItem
    [tagItem 1, plainOp 5, returnJumpItem] [] wMap wBlock ordinaryJumpItem
    (by decide) (by decide) (by rfl) (by rfl) (by decide) (by decide),
   optimiseLoop_step_characterisation.2 9 (plainOp 7) noCallStream [] wMap
    (Or.inl (by decide))⟩

theorem optimise_total_and_identity_witness :
    optimise 5 noCallStream = Except.ok noCallStream ∧
    (∃ out, optimise 7 noCallStream = Except.ok out) ∧
    optimise 3 noCallStream = Except.ok noCallStream :=
  ⟨optimise_total_and_identity.2.2 5 noCallStream (by rfl),
   optimise_total_and_identity.1 7 noCallStream,
   optimise_total_and_identity.2.1 3 noCallStream [] (by rfl) (by
     refine ⟨?_, ?_⟩
     · rintro ⟨b, e, h1, h2, hlk, hsi⟩
       simp [lookupA] at hlk
     · trivial)⟩
